import Mathlib

set_option autoImplicit false

namespace RiotCli

/-!
Shallow embedding of the build-orchestration module `lib/index.js` of the
riot CLI: path resolution, the `make` build pass (read, BOM strip, compile,
encapsulate, write, report), and the `watch` loop. The external tag compiler
is an opaque pure function that may fail; file reads and the recursive
source-file enumeration are taken from an explicit `World`. Build passes are
modelled as the ordered trace of file-system operations they perform.
-/

abbrev Path := String

/-- Argument-shape classification computed once per pass: in `opt.flow`, the
character `f` marks a single file, anything else a directory. `flow[0]`
classifies the source, `flow[1]` the destination (`file` means one
concatenated output file, `dir` means a mirrored directory tree). -/
inductive ArgKind where
  | file
  | dir
  deriving DecidableEq

/-- Options forwarded verbatim to the external compiler; the core itself
reads only the module-packaging and silence flags. -/
structure CompilerOpts where
  modular : Bool
  silent : Bool
  deriving DecidableEq

/-- External compiler collaborator: `compile(sourceText, options)` is a
synchronous pure function of its inputs that may throw a compilation error,
modelled as `Except`. -/
abbrev Compile := String → CompilerOpts → Except String String

/-- File-system facts one build pass consumes: `read` is the content lookup
behind `sh.cat` on a single path, and `tree` is the recursive enumeration of
matching source files under a directory root, in discovery order. -/
structure World where
  read : Path → String
  tree : Path → List Path

/-- Modelled from the spec: the helper `find` is not part of this module; per
the spec it enumerates every file under the source root whose name matches
the configured source extension, recursively, and resolution never reads file
contents. The enumeration is file-system state, taken from the `World`. -/
def find (w : World) (root : Path) : List Path :=
  w.tree root

/-- Directory part of a path as Node's `path.dirname` computes it: everything
before the last separator, or `.` when there is none. -/
def dirname (p : Path) : Path :=
  let parts := p.data.splitOn '/'
  if parts.length ≤ 1 then "." else String.mk (List.intercalate ['/'] parts.dropLast)

/-- Modelled from the spec: the missing resolution helpers join a destination
directory and a relative path as Node's `path.join` does. -/
def joinPath (a b : Path) : Path :=
  if a = "" then b else a ++ "/" ++ b

/-- Modelled from the spec: the path of `p` relative to the base directory
`base` (the input's position inside the source tree). -/
def relTo (base p : Path) : Path :=
  if (base.data ++ ['/']).isPrefixOf p.data then String.mk (p.data.drop (base.data.length + 1))
  else p

/-- Modelled from the spec: swap the configured source extension at the end
of a file name for the `.js` output extension. -/
def swapExt (ext : String) (p : Path) : Path :=
  if ('.' :: ext.data).reverse.isPrefixOf p.data.reverse then
    String.mk (p.data.take (p.data.length - (ext.data.length + 1))) ++ ".js"
  else p ++ ".js"

/-- Modelled from the spec: the helper `remap` is not part of this module;
per the spec it maps every input to the destination (or, when the destination
is omitted, the base) joined with the input's path relative to the base, with
the source extension replaced by the output extension. -/
def remap (ext : String) (srcs : List Path) (dest : Option Path) (base : Path) : List Path :=
  srcs.map (fun p => swapExt ext (joinPath (dest.getD base) (relTo base p)))

/-- BOM stripping performed by `parse`: replacing the anchored byte-order
mark pattern removes exactly one leading BOM character, if present. -/
def stripBom (s : String) : String :=
  match s.data with
  | [] => s
  | c :: cs => if c = '\uFEFF' then String.mk cs else s

/-- Embedding of `parse` inside `make`: read the file's text, strip a single
leading byte-order mark, and invoke the external compiler with the pass
options. -/
def parse (read : Path → String) (compile : Compile) (co : CompilerOpts) (p : Path) :
    Except String String :=
  compile (stripBom (read p)) co

/-- Sequential compilation of a list of inputs, mirroring `from.map(parse)`
under JavaScript exception semantics: the first throw aborts the traversal
and nothing after it is compiled. -/
def parseAll (read : Path → String) (compile : Compile) (co : CompilerOpts) :
    List Path → Except String (List String)
  | [] => Except.ok []
  | p :: ps =>
    match parse read compile co p with
    | Except.error e => Except.error e
    | Except.ok t =>
      match parseAll read compile co ps with
      | Except.error e => Except.error e
      | Except.ok ts => Except.ok (t :: ts)

/-- Head of the universal module loader shim built by `encapsulate`: the text
up to and including the line that opens the wrapped function. -/
def shimHead : String :=
  "(function(tagger) \x7b\n" ++
  "  if (typeof define === \x27function\x27 && define.amd) \x7b\n" ++
  "    define(function(require, exports, module) \x7b tagger(require(\x27riot\x27), require, exports, module)\x7d)\n" ++
  "  \x7d else if (typeof module !== \x27undefined\x27 && typeof module.exports !== \x27undefined\x27) \x7b\n" ++
  "    tagger(require(\x27riot\x27), require, exports, module)\n" ++
  "  \x7d else \x7b\n" ++
  "    tagger(window.riot)\n" ++
  "  \x7d\n" ++
  "\x7d)(function(riot, require, exports, module) \x7b\n"

/-- Tail of the universal module loader shim, appended after the wrapped
text. -/
def shimTail : String :=
  "\n\x7d);"

/-- Embedding of `encapsulate` inside `make`: the identity transform unless
module packaging is requested, otherwise the text wrapped between the shim
head and the shim tail. -/
def encapsulate (co : CompilerOpts) (text : String) : String :=
  if !co.modular then text
  else shimHead ++ text ++ shimTail

/-- One observable file-system effect of a build pass, in program order. -/
inductive FsOp where
  | mkdirs (dirs : List Path)
  | write (p : Path) (content : String)
  deriving DecidableEq, Repr

/-- Embedding of `toFile`: compile every input, join the compiled texts with
a single newline in input order, encapsulate once, and write to the single
output path `to[0]`. A compiler throw on any input aborts before the write
ever happens. -/
def toFile (read : Path → String) (compile : Compile) (co : CompilerOpts)
    (srcs : List Path) (outs : List Path) : List FsOp × Option String :=
  match parseAll read compile co srcs with
  | Except.error e => ([], some e)
  | Except.ok ts =>
    ([FsOp.write (outs.headD "") (encapsulate co (String.intercalate "\n" ts))], none)

/-- Embedding of `toDir`: walk the input/output pairs in order, compiling,
encapsulating and writing one file at a time; a compiler throw aborts the
walk, leaving the writes already performed in the trace. -/
def toDir (read : Path → String) (compile : Compile) (co : CompilerOpts) :
    List (Path × Path) → List FsOp × Option String
  | [] => ([], none)
  | (p, o) :: rest =>
    match parse read compile co p with
    | Except.error e => ([], some e)
    | Except.ok t =>
      let r := toDir read compile co rest
      (FsOp.write o (encapsulate co t) :: r.1, r.2)

/-- Options of one pass. The flow classification is computed once by the
missing helper `init` (the FlowClassifier of the spec) and carried here
already computed, immutable for the pass; the claims condition on it
directly. -/
structure Options where
  from_ : Path
  dest : Option Path
  ext : String
  flow : ArgKind × ArgKind
  compiler : CompilerOpts

/-- Input list of one pass: `opt.flow[0] == 'f' ? [opt.from] : find(opt.from)`. -/
def resolveFrom (w : World) (opt : Options) : List Path :=
  match opt.flow.1 with
  | ArgKind.file => [opt.from_]
  | ArgKind.dir => find w opt.from_

/-- Base directory of one pass:
`opt.flow[0] == 'f' ? ph.dirname(opt.from) : opt.from`. -/
def resolveBase (opt : Options) : Path :=
  match opt.flow.1 with
  | ArgKind.file => dirname opt.from_
  | ArgKind.dir => opt.from_

/-- Output list of one pass:
`opt.flow[1] == 'f' ? [opt.to] : remap(from, opt.to, base)`. -/
def resolveTo (w : World) (opt : Options) : List Path :=
  match opt.flow.2 with
  | ArgKind.file => [opt.dest.getD ""]
  | ArgKind.dir => remap opt.ext (resolveFrom w opt) opt.dest (resolveBase opt)

/-- JavaScript indexing `to[i] || to[0]` used by the report loop: an
out-of-range index yields `undefined` (modelled as the empty string), which
is falsy and falls back to `to[0]`. -/
def jsIdx (outs : List Path) (i : Nat) : Path :=
  let t := outs.getD i ""
  if t = "" then outs.getD 0 "" else t

/-- Result of one `make` pass: the ordered operation trace (including the
writes performed before an abort), the propagated compiler error if the pass
aborted, and the reported input/output pairs. -/
structure MakeResult where
  ops : List FsOp
  err : Option String
  reports : List (Path × Path)
  deriving DecidableEq, Repr

/-- Compile-and-write stage of one pass: `toFile` or `toDir` according to the
destination kind, exactly as `make` dispatches on `opt.flow[1]`. -/
def passOps (w : World) (compile : Compile) (opt : Options) : List FsOp × Option String :=
  match opt.flow.2 with
  | ArgKind.file => toFile w.read compile opt.compiler (resolveFrom w opt) (resolveTo w opt)
  | ArgKind.dir => toDir w.read compile opt.compiler ((resolveFrom w opt).zip (resolveTo w opt))

/-- Embedding of `make`: resolve inputs and outputs, create the needed output
directories, run `toFile` or `toDir` according to the destination kind, then
(unless silenced, and only when no error was thrown) report one
input/output pair per input. -/
def make (w : World) (compile : Compile) (opt : Options) : MakeResult :=
  MakeResult.mk
    (FsOp.mkdirs ((resolveTo w opt).map dirname).dedup :: (passOps w compile opt).1)
    (passOps w compile opt).2
    (match (passOps w compile opt).2 with
     | some _ => []
     | none =>
       if opt.compiler.silent then []
       else (resolveFrom w opt).enum.map (fun x => (x.2, jsIdx (resolveTo w opt) x.1)))

/-- All file writes an operation trace performs, in order. -/
def writesOf : List FsOp → List (Path × String)
  | [] => []
  | FsOp.mkdirs _ :: rest => writesOf rest
  | FsOp.write p c :: rest => (p, c) :: writesOf rest

/-- Effect of one trace operation on file contents: directory creation leaves
contents alone, a write replaces the target file's contents. -/
def applyOp (read : Path → String) : FsOp → Path → String
  | FsOp.mkdirs _ => read
  | FsOp.write p c => fun q => if q = p then c else read q

/-- Effect of a whole trace on file contents, applied in order. -/
def applyOps (read : Path → String) : List FsOp → Path → String
  | [] => read
  | op :: rest => applyOps (applyOp read op) rest

/-- File-system state after one full `make` pass. The matching-source
enumeration is unchanged: the pass only writes files carrying the output
extension, which the source-extension enumeration does not match. -/
def runMake (w : World) (compile : Compile) (opt : Options) : World :=
  World.mk (applyOps w.read (make w compile opt).ops) w.tree

/-- Check that the occurrences of an opening/closing delimiter pair nest
properly in a character list: the depth never drops below zero and ends at
zero. -/
def dyckAux (o c : Char) : List Char → Nat → Bool
  | [], d => d == 0
  | x :: xs, d =>
    if x = o then dyckAux o c xs (d + 1)
    else if x = c then
      match d with
      | 0 => false
      | d + 1 => dyckAux o c xs d
    else dyckAux o c xs d

/-- Delimiter-pair balance of a string. -/
def dyck (o c : Char) (s : String) : Bool :=
  dyckAux o c s.data 0

/-- Events in the watcher collaborator's raw stream: synthetic add events
from the initial scan, the single `ready` notification fired when the initial
scan completes, and genuine post-startup change events. -/
inductive WatchEvent where
  | initialScan
  | ready
  | change
  deriving DecidableEq

/-- Observable actions of the watch loop, in order: `build` is one complete
`make` pass (full re-resolution, never incremental), `logWatching` is the
log line emitted by the `ready` handler. -/
inductive WatchAction where
  | build
  | logWatching
  deriving DecidableEq

/-- Modelled from the spec: the watcher collaborator (an external dependency,
not part of this module) delivers `ready` once and `all` once per change;
with `ignoreInitial: true`, as `watch` passes, the synthetic initial-scan
events are not delivered to the `all` handler. -/
def deliver (ignoreInitial : Bool) (e : WatchEvent) : Option WatchEvent :=
  match e with
  | WatchEvent.initialScan => if ignoreInitial then none else some e
  | _ => some e

/-- Handlers installed by `watch`: the `ready` handler logs that watching has
started, the `all` handler re-runs the entire `make` pass. -/
def handle (e : WatchEvent) : WatchAction :=
  match e with
  | WatchEvent.ready => WatchAction.logWatching
  | _ => WatchAction.build

/-- Embedding of `watch`: one immediate `make` pass before the watcher is
even subscribed, then one handler invocation per delivered event, with
`ignoreInitial` set. -/
def watchRun (events : List WatchEvent) : List WatchAction :=
  WatchAction.build :: events.filterMap (fun e => (deliver true e).map handle)

/-! Concrete fixtures used by the witness and counterexample theorems. -/

/-- Compiler fixture that succeeds on every text, returning it unchanged. -/
def idCompile : Compile :=
  fun s _ => Except.ok s

/-- Compiler fixture that throws on the text of `d/bad.tag` and succeeds on
everything else. -/
def failCompile : Compile :=
  fun s _ => if s = "text of d/bad.tag" then Except.error "bad input" else Except.ok s

/-- Compiler options fixture: no module packaging, not silent. -/
def coPlain : CompilerOpts :=
  CompilerOpts.mk false false

/-- World fixture: every file reads as a text naming its path; the tree under
any root enumerates two tag files. -/
def w0 : World :=
  World.mk (fun p => "text of " ++ p) (fun _ => ["d/a.tag", "d/b.tag"])

/-- World fixture with a failing middle file in the enumeration. -/
def w1 : World :=
  World.mk (fun p => "text of " ++ p) (fun _ => ["d/a.tag", "d/bad.tag", "d/c.tag"])

/-- World fixture whose tree enumeration is empty. -/
def wEmpty : World :=
  World.mk (fun p => "text of " ++ p) (fun _ => [])

/-- Options fixture: tree source `d`, concatenated destination `out.js`. -/
def optConcat : Options :=
  Options.mk "d" (some "out.js") "tag" (ArgKind.dir, ArgKind.file) coPlain

/-- Options fixture: tree source `d`, mirrored destination directory `out`. -/
def optMirror : Options :=
  Options.mk "d" (some "out") "tag" (ArgKind.dir, ArgKind.dir) coPlain

/-- Compiler options fixture with module packaging on. -/
def coMod : CompilerOpts :=
  CompilerOpts.mk true false

set_option maxRecDepth 10000

/-- C3: `encapsulate` is the identity when module packaging is off; with it
on, the result is the shim head, then the original text verbatim as a
contiguous substring, then the shim tail, and both the parenthesis pairs and
the brace pairs opened by the wrapper are properly closed. -/
theorem encapsulate_roundtrip (co : CompilerOpts) (t : String) :
    (co.modular = false → encapsulate co t = t) ∧
    (co.modular = true →
      encapsulate co t = shimHead ++ t ++ shimTail ∧
      (∃ l r, encapsulate co t = l ++ t ++ r) ∧
      dyck '(' ')' (shimHead ++ shimTail) = true ∧
      dyck '\x7b' '\x7d' (shimHead ++ shimTail) = true) := by
  constructor
  · intro h
    simp [encapsulate, h]
  · intro h
    refine ⟨by simp [encapsulate, h], ⟨shimHead, shimTail, by simp [encapsulate, h]⟩, ?_, ?_⟩
    · decide
    · decide

/-- C3 witness: the round trip at a concrete text, for both settings of the
module-packaging flag. -/
theorem encapsulate_roundtrip_witness :
    encapsulate coPlain "x" = "x" ∧
    encapsulate coMod "x" = shimHead ++ "x" ++ shimTail :=
  ⟨(encapsulate_roundtrip coPlain "x").1 rfl,
   ((encapsulate_roundtrip coMod "x").2 rfl).1⟩

/-- Stripping the BOM from a text with exactly one prepended BOM character
recovers the text. -/
theorem stripBom_cons_bom (t : String) : stripBom (String.mk ('\uFEFF' :: t.data)) = t := by
  cases t with
  | mk l => simp [stripBom]

/-- C6: a source text beginning with the byte-order mark yields the same
compiled output as the same text without that leading BOM: exactly one BOM
character is stripped before the external compiler is invoked. -/
theorem bom_stripped (read : Path → String) (compile : Compile) (co : CompilerOpts)
    (p : Path) (t : String)
    (h : read p = String.mk ('\uFEFF' :: t.data)) :
    parse read compile co p = compile t co := by
  rw [parse, h, stripBom_cons_bom]

/-- C6 witness: a concrete BOM-prefixed text compiles identically to the bare
text. -/
theorem bom_stripped_witness :
    parse (fun _ => String.mk ('\uFEFF' :: "x".data)) idCompile coPlain "p" =
      idCompile "x" coPlain :=
  bom_stripped (fun _ => String.mk ('\uFEFF' :: "x".data)) idCompile coPlain "p" "x" rfl

/-- C1: with a SingleFile destination, a pass in which every input compiles
performs exactly one file write; with module packaging off, the written
content is the compiled texts of all inputs joined by single newlines, in
input order. -/
theorem singleFile_concat (w : World) (compile : Compile) (opt : Options)
    (d : Path) (ts : List String)
    (hflow : opt.flow.2 = ArgKind.file) (hdest : opt.dest = some d)
    (hok : parseAll w.read compile opt.compiler (resolveFrom w opt) = Except.ok ts) :
    (make w compile opt).err = none ∧
    ∃ c, writesOf (make w compile opt).ops = [(d, c)] ∧
      (opt.compiler.modular = false → c = String.intercalate "\n" ts) := by
  have houts : resolveTo w opt = [d] := by simp [resolveTo, hflow, hdest]
  refine ⟨?_, encapsulate opt.compiler (String.intercalate "\n" ts), ?_, ?_⟩
  · simp [make, passOps, hflow, toFile, hok]
  · simp [make, passOps, hflow, toFile, hok, houts, writesOf]
  · intro hm
    simp [encapsulate, hm]

/-- C1 witness: a concrete two-input concatenation build writes exactly one
file holding the two compiled texts joined by a newline. -/
theorem singleFile_concat_witness :
    (make w0 idCompile optConcat).err = none ∧
    ∃ c, writesOf (make w0 idCompile optConcat).ops = [("out.js", c)] ∧
      (optConcat.compiler.modular = false →
        c = String.intercalate "\n" ["text of d/a.tag", "text of d/b.tag"]) :=
  singleFile_concat w0 idCompile optConcat "out.js" ["text of d/a.tag", "text of d/b.tag"]
    rfl rfl rfl

/-- C10: with a SingleFile destination, a compiler failure on any input means
no output file is written at all: every input is compiled before the single
write happens, and the pass aborts with the compiler's error. -/
theorem singleFile_fail_atomic (w : World) (compile : Compile) (opt : Options)
    (e : String)
    (hflow : opt.flow.2 = ArgKind.file)
    (hfail : parseAll w.read compile opt.compiler (resolveFrom w opt) = Except.error e) :
    (make w compile opt).err = some e ∧ writesOf (make w compile opt).ops = [] := by
  constructor
  · simp [make, passOps, hflow, toFile, hfail]
  · simp [make, passOps, hflow, toFile, hfail, writesOf]

/-- C10 witness: a concrete concatenation build whose second input fails
writes nothing. -/
theorem singleFile_fail_atomic_witness :
    (make w1 failCompile optConcat).err = some "bad input" ∧
    writesOf (make w1 failCompile optConcat).ops = [] :=
  singleFile_fail_atomic w1 failCompile optConcat "bad input" rfl rfl

/-- C4 counterexample: a tree source whose enumeration is empty together with
a SingleFile destination still writes one output file (with empty content),
so the pass is not output-free for every destination kind. -/
theorem emptyTree_concat_writes :
    (make wEmpty idCompile optConcat).err = none ∧
    writesOf (make wEmpty idCompile optConcat).ops = [("out.js", "")] :=
  ⟨rfl, rfl⟩

/-- C4 amended: a tree source that yields zero matching files is never fatal
and compiles nothing; with a Mirrored destination no output file is written,
while with a SingleFile destination the single output file is still written,
containing the encapsulation of the empty text. -/
theorem emptyTree_behavior (w : World) (compile : Compile) (opt : Options)
    (hsrc : opt.flow.1 = ArgKind.dir) (hempty : w.tree opt.from_ = []) :
    (make w compile opt).err = none ∧
    (opt.flow.2 = ArgKind.dir → writesOf (make w compile opt).ops = []) ∧
    (∀ d, opt.flow.2 = ArgKind.file → opt.dest = some d →
      writesOf (make w compile opt).ops = [(d, encapsulate opt.compiler "")]) := by
  have hsrcs : resolveFrom w opt = [] := by simp [resolveFrom, hsrc, find, hempty]
  refine ⟨?_, ?_, ?_⟩
  · cases hf : opt.flow.2 <;> simp [make, passOps, hf, hsrcs, toFile, toDir, parseAll]
  · intro hf
    simp [make, passOps, hf, hsrcs, toDir, writesOf]
  · intro d hf hd
    simp [make, passOps, hf, hsrcs, toFile, parseAll, resolveTo, hd, writesOf, String.intercalate]

/-- C4 witness for the amended statement, at a concrete empty enumeration and
a concatenated destination. -/
theorem emptyTree_behavior_witness :
    (make wEmpty idCompile optConcat).err = none ∧
    (optConcat.flow.2 = ArgKind.dir → writesOf (make wEmpty idCompile optConcat).ops = []) ∧
    (∀ d, optConcat.flow.2 = ArgKind.file → optConcat.dest = some d →
      writesOf (make wEmpty idCompile optConcat).ops = [(d, encapsulate optConcat.compiler "")]) :=
  emptyTree_behavior wEmpty idCompile optConcat rfl rfl

/-- Unfolding of a `toDir` walk over a prefix of successfully compiled pairs
followed by the first failing input: the trace holds exactly the writes for
the earlier pairs, and the walk stops with the compiler's error. -/
theorem toDir_ok_front (read : Path → String) (compile : Compile) (co : CompilerOpts)
    (good : List (Path × Path)) (ts : List String) (p o : Path)
    (rest : List (Path × Path)) (e : String)
    (hok : parseAll read compile co (good.map Prod.fst) = Except.ok ts)
    (hfail : parse read compile co p = Except.error e) :
    toDir read compile co (good ++ (p, o) :: rest) =
      (List.zipWith (fun x t => FsOp.write x.2 (encapsulate co t)) good ts, some e) := by
  induction good generalizing ts with
  | nil =>
    simp [parseAll] at hok
    subst hok
    simp [toDir, hfail]
  | cons g gs ih =>
    obtain ⟨gp, go⟩ := g
    cases hg : parse read compile co gp with
    | error err => simp [parseAll, hg] at hok
    | ok t0 =>
      cases hgs : parseAll read compile co (gs.map Prod.fst) with
      | error err => simp [parseAll, hg, hgs] at hok
      | ok ts0 =>
        have hts : ts = t0 :: ts0 := by
          simp [parseAll, hg, hgs] at hok
          exact hok.symm
        subst hts
        simp [toDir, hg, ih ts0 hgs]

/-- File writes of a zipped write trace, pairwise. -/
theorem writesOf_zipWith (co : CompilerOpts) :
    ∀ (gs : List (Path × Path)) (ts : List String),
      writesOf (List.zipWith (fun x t => FsOp.write x.2 (encapsulate co t)) gs ts) =
        List.zipWith (fun x t => (x.2, encapsulate co t)) gs ts := by
  intro gs
  induction gs with
  | nil => intro ts; rfl
  | cons g gs ih =>
    intro ts
    cases ts with
    | nil => rfl
    | cons t ts => simp [writesOf, ih]

/-- Collapsing the source components out of a zipped pair trace. -/
theorem zipWith_pairs_snd (co : CompilerOpts) :
    ∀ (s o : List Path) (ts : List String), s.length = o.length →
      List.zipWith (fun x t => (x.2, encapsulate co t)) (s.zip o) ts =
        List.zipWith (fun q t => (q, encapsulate co t)) o ts := by
  intro s
  induction s with
  | nil =>
    intro o ts h
    cases o with
    | nil => rfl
    | cons b o => simp at h
  | cons a s ih =>
    intro o ts h
    cases o with
    | nil => simp at h
    | cons b o =>
      cases ts with
      | nil => rfl
      | cons t ts =>
        simp only [List.zip_cons_cons, List.zipWith_cons_cons]
        rw [ih o ts (by simpa using h)]

/-- Compiling an input list whose prefix succeeds and whose next input fails
yields that first failure's error, unmodified. -/
theorem parseAll_append_error (read : Path → String) (compile : Compile) (co : CompilerOpts)
    (l1 : List Path) (ts : List String) (p : Path) (l2 : List Path) (e : String)
    (hok : parseAll read compile co l1 = Except.ok ts)
    (hfail : parse read compile co p = Except.error e) :
    parseAll read compile co (l1 ++ p :: l2) = Except.error e := by
  induction l1 generalizing ts with
  | nil => simp [parseAll, hfail]
  | cons q qs ih =>
    cases hq : parse read compile co q with
    | error err => simp [parseAll, hq] at hok
    | ok t0 =>
      cases hqs : parseAll read compile co qs with
      | error err => simp [parseAll, hq, hqs] at hok
      | ok ts0 => simp [parseAll, hq, ih ts0 hqs]

/-- C2: in any pass whose input list has a first failing input, the whole
pass aborts and the compiler's error propagates unmodified (no retry, no
suppression) with nothing reported: with a SingleFile destination nothing at
all is written, and with a Mirrored destination the trace holds exactly the
writes already performed for the earlier inputs of the same pass, which stay
in place (no rollback). -/
theorem compile_fail_aborts (w : World) (compile : Compile) (opt : Options)
    (srcs1 srcs2 : List Path) (p : Path) (ts : List String) (e : String)
    (hsrc : resolveFrom w opt = srcs1 ++ p :: srcs2)
    (hok : parseAll w.read compile opt.compiler srcs1 = Except.ok ts)
    (hfail : parse w.read compile opt.compiler p = Except.error e) :
    (opt.flow.2 = ArgKind.file →
      (make w compile opt).err = some e ∧
      (make w compile opt).reports = [] ∧
      writesOf (make w compile opt).ops = []) ∧
    (∀ outs1 o outs2, opt.flow.2 = ArgKind.dir →
      resolveTo w opt = outs1 ++ o :: outs2 → srcs1.length = outs1.length →
      (make w compile opt).err = some e ∧
      (make w compile opt).reports = [] ∧
      writesOf (make w compile opt).ops =
        List.zipWith (fun q t => (q, encapsulate opt.compiler t)) outs1 ts) := by
  constructor
  · intro hf
    have hpa : parseAll w.read compile opt.compiler (resolveFrom w opt) = Except.error e := by
      rw [hsrc]
      exact parseAll_append_error w.read compile opt.compiler srcs1 ts p srcs2 e hok hfail
    have hpass : passOps w compile opt = ([], some e) := by
      rw [passOps, hf]
      simp [toFile, hpa]
    exact ⟨by simp [make, hpass], by simp [make, hpass], by simp [make, hpass, writesOf]⟩
  · intro outs1 o outs2 hf hout hlen
    have hzip : (resolveFrom w opt).zip (resolveTo w opt) =
        srcs1.zip outs1 ++ (p, o) :: srcs2.zip outs2 := by
      rw [hsrc, hout, List.zip_append hlen]
      rfl
    have hfst : (srcs1.zip outs1).map Prod.fst = srcs1 :=
      List.map_fst_zip srcs1 outs1 (le_of_eq hlen)
    have htd := toDir_ok_front w.read compile opt.compiler (srcs1.zip outs1) ts p o
      (srcs2.zip outs2) e (by rw [hfst]; exact hok) hfail
    have hpass : passOps w compile opt =
        (List.zipWith (fun x t => FsOp.write x.2 (encapsulate opt.compiler t))
          (srcs1.zip outs1) ts, some e) := by
      rw [passOps, hf]
      rw [hzip, htd]
    refine ⟨by simp [make, hpass], by simp [make, hpass], ?_⟩
    simp only [make, hpass, writesOf]
    rw [writesOf_zipWith, zipWith_pairs_snd opt.compiler srcs1 outs1 ts hlen]

/-- C2 witness: a concrete three-input mirrored build whose second input
fails keeps the first input's written output, reports nothing, and surfaces
the compiler's error. -/
theorem compile_fail_aborts_witness :
    (optMirror.flow.2 = ArgKind.file →
      (make w1 failCompile optMirror).err = some "bad input" ∧
      (make w1 failCompile optMirror).reports = [] ∧
      writesOf (make w1 failCompile optMirror).ops = []) ∧
    (∀ outs1 o outs2, optMirror.flow.2 = ArgKind.dir →
      resolveTo w1 optMirror = outs1 ++ o :: outs2 → ["d/a.tag"].length = outs1.length →
      (make w1 failCompile optMirror).err = some "bad input" ∧
      (make w1 failCompile optMirror).reports = [] ∧
      writesOf (make w1 failCompile optMirror).ops =
        List.zipWith (fun q t => (q, encapsulate optMirror.compiler t)) outs1
          ["text of d/a.tag"]) :=
  compile_fail_aborts w1 failCompile optMirror
    ["d/a.tag"] ["d/c.tag"] "d/bad.tag" ["text of d/a.tag"] "bad input" rfl rfl rfl

/-- Write targets of a `toDir` walk all come from the output component of its
pair list. -/
theorem toDir_write_mem (read : Path → String) (compile : Compile) (co : CompilerOpts) :
    ∀ (l : List (Path × Path)) (p : Path) (c : String),
      FsOp.write p c ∈ (toDir read compile co l).1 → p ∈ l.map Prod.snd := by
  intro l
  induction l with
  | nil => intro p c h; simp [toDir] at h
  | cons x rest ih =>
    intro p c h
    obtain ⟨xp, xo⟩ := x
    cases hx : parse read compile co xp with
    | error e => simp [toDir, hx] at h
    | ok t =>
      simp only [toDir, hx] at h
      rcases List.mem_cons.mp h with heq | hmem
      · cases heq
        simp
      · simp [ih p c hmem]

/-- C7: every pass's very first operation creates the union of the parent
directories of all resolved output paths, before any file write; every
written path's parent directory belongs to that created set, so no write can
fail for lack of its parent. -/
theorem dirs_created_first (w : World) (compile : Compile) (opt : Options) :
    ∃ ds rest, (make w compile opt).ops = FsOp.mkdirs ds :: rest ∧
      ∀ p c, FsOp.write p c ∈ rest → dirname p ∈ ds := by
  refine ⟨((resolveTo w opt).map dirname).dedup, (passOps w compile opt).1, rfl, ?_⟩
  intro p c h
  have hp : p ∈ resolveTo w opt := by
    rw [passOps] at h
    cases hf : opt.flow.2 with
    | file =>
      rw [hf] at h
      cases hpa : parseAll w.read compile opt.compiler (resolveFrom w opt) with
      | error e => simp [toFile, hpa] at h
      | ok ts =>
        simp only [toFile, hpa, List.mem_singleton] at h
        cases h
        have houts : resolveTo w opt = [opt.dest.getD ""] := by simp [resolveTo, hf]
        rw [houts]
        simp [List.headD, houts]
    | dir =>
      rw [hf] at h
      have := toDir_write_mem w.read compile opt.compiler
        ((resolveFrom w opt).zip (resolveTo w opt)) p c h
      rcases List.mem_map.mp this with ⟨x, hx, hx2⟩
      obtain ⟨a, b⟩ := x
      cases hx2
      exact (List.of_mem_zip hx).2
  exact List.mem_dedup.mpr (List.mem_map_of_mem dirname hp)

/-- C7 witness: the directory-creation guarantee at a concrete build. -/
theorem dirs_created_first_witness :
    ∃ ds rest, (make w0 idCompile optConcat).ops = FsOp.mkdirs ds :: rest ∧
      ∀ p c, FsOp.write p c ∈ rest → dirname p ∈ ds :=
  dirs_created_first w0 idCompile optConcat

/-- Selecting from a one-element output list always yields its element when
that element is nonempty, matching the shared-path fallback `to[i] || to[0]`. -/
theorem jsIdx_singleton (d : Path) (hd : d ≠ "") : ∀ i, jsIdx [d] i = d := by
  intro i
  cases i with
  | zero => simp [jsIdx, hd]
  | succ j => simp [jsIdx, List.getD]

/-- C8: a non-silent pass that does not abort reports exactly one
input/output pair per input, in input order; with a SingleFile destination
(and a nonempty destination path) every reported pair carries the same shared
output path. -/
theorem reports_per_input (w : World) (compile : Compile) (opt : Options)
    (hs : opt.compiler.silent = false)
    (he : (make w compile opt).err = none) :
    (make w compile opt).reports =
      (resolveFrom w opt).enum.map (fun x => (x.2, jsIdx (resolveTo w opt) x.1)) ∧
    ∀ d, opt.flow.2 = ArgKind.file → opt.dest = some d → d ≠ "" →
      ∀ r ∈ (make w compile opt).reports, r.2 = d := by
  have herr : (passOps w compile opt).2 = none := he
  have hrep : (make w compile opt).reports =
      (resolveFrom w opt).enum.map (fun x => (x.2, jsIdx (resolveTo w opt) x.1)) := by
    simp [make, herr, hs]
  refine ⟨hrep, ?_⟩
  intro d hf hd hne r hr
  rw [hrep] at hr
  rcases List.mem_map.mp hr with ⟨x, _, hx⟩
  cases hx
  have houts : resolveTo w opt = [d] := by simp [resolveTo, hf, hd]
  simp only [houts]
  exact jsIdx_singleton d hne x.1

/-- C8 witness: a concrete non-silent concatenation build reports each input
paired with the single shared output path. -/
theorem reports_per_input_witness :
    (make w0 idCompile optConcat).reports =
      (resolveFrom w0 optConcat).enum.map
        (fun x => (x.2, jsIdx (resolveTo w0 optConcat) x.1)) ∧
    ∀ d, optConcat.flow.2 = ArgKind.file → optConcat.dest = some d → d ≠ "" →
      ∀ r ∈ (make w0 idCompile optConcat).reports, r.2 = d :=
  reports_per_input w0 idCompile optConcat rfl rfl

/-- Compilation of a list of inputs depends only on the contents of those
inputs. -/
theorem parseAll_read_congr (r1 r2 : Path → String) (compile : Compile) (co : CompilerOpts) :
    ∀ l : List Path, (∀ p ∈ l, r1 p = r2 p) →
      parseAll r1 compile co l = parseAll r2 compile co l := by
  intro l
  induction l with
  | nil => intro _; rfl
  | cons p ps ih =>
    intro h
    have hp : parse r1 compile co p = parse r2 compile co p := by
      unfold parse
      rw [h p (List.mem_cons_self p ps)]
    unfold parseAll
    rw [hp, ih (fun q hq => h q (List.mem_cons_of_mem p hq))]

/-- A `toDir` walk depends only on the contents of its input files. -/
theorem toDir_read_congr (r1 r2 : Path → String) (compile : Compile) (co : CompilerOpts) :
    ∀ l : List (Path × Path), (∀ x ∈ l, r1 x.1 = r2 x.1) →
      toDir r1 compile co l = toDir r2 compile co l := by
  intro l
  induction l with
  | nil => intro _; rfl
  | cons x rest ih =>
    intro h
    obtain ⟨xp, xo⟩ := x
    have hp : parse r1 compile co xp = parse r2 compile co xp := by
      unfold parse
      rw [h (xp, xo) (List.mem_cons_self (xp, xo) rest)]
    unfold toDir
    rw [hp, ih (fun q hq => h q (List.mem_cons_of_mem (xp, xo) hq))]

/-- A whole `make` pass depends only on the tree enumeration and the contents
of the resolved inputs. -/
theorem make_read_congr (w1 w2 : World) (compile : Compile) (opt : Options)
    (htree : w1.tree = w2.tree)
    (hread : ∀ p ∈ resolveFrom w2 opt, w1.read p = w2.read p) :
    make w1 compile opt = make w2 compile opt := by
  have hfrom : resolveFrom w1 opt = resolveFrom w2 opt := by
    simp [resolveFrom, find, htree]
  have hto : resolveTo w1 opt = resolveTo w2 opt := by
    unfold resolveTo
    rw [hfrom]
  have hpass : passOps w1 compile opt = passOps w2 compile opt := by
    unfold passOps
    rw [hfrom, hto]
    cases opt.flow.2 with
    | file =>
      simp only
      unfold toFile
      rw [parseAll_read_congr w1.read w2.read compile opt.compiler (resolveFrom w2 opt) hread]
    | dir =>
      simp only
      apply toDir_read_congr
      intro x hx
      obtain ⟨a, b⟩ := x
      exact hread a (List.of_mem_zip hx).1
  unfold make
  rw [hfrom, hto, hpass]

/-- C9: determinism and idempotence of a pass: if the first run leaves every
resolved input file's contents unchanged (no external state changes, and the
compiler a pure function of its inputs), running the same build again with
the same options produces byte-identical operations, reports and error
outcome. -/
theorem make_idempotent (w : World) (compile : Compile) (opt : Options)
    (h : ∀ p ∈ resolveFrom w opt, (runMake w compile opt).read p = w.read p) :
    make (runMake w compile opt) compile opt = make w compile opt :=
  make_read_congr (runMake w compile opt) w compile opt rfl h

/-- C9 witness: re-running a concrete concatenation build after its first run
reproduces the first run exactly. -/
theorem make_idempotent_witness :
    make (runMake w0 idCompile optConcat) idCompile optConcat =
      make w0 idCompile optConcat :=
  make_idempotent w0 idCompile optConcat (by decide)

/-- C5: for a well-formed watch trace (first the synthetic initial-scan
events, then the single `ready` notification, then the genuine change
events), the watch loop runs exactly one full build before the
watching-started log, ignores every initial-scan event, and runs exactly one
additional complete build pass per change event. -/
theorem watch_one_build_per_change (scans changes : List WatchEvent)
    (hscan : ∀ e ∈ scans, e = WatchEvent.initialScan)
    (hch : ∀ e ∈ changes, e = WatchEvent.change) :
    watchRun (scans ++ WatchEvent.ready :: changes) =
      WatchAction.build :: WatchAction.logWatching ::
        changes.map (fun _ => WatchAction.build) := by
  unfold watchRun
  rw [List.filterMap_append]
  have h1 : scans.filterMap (fun e => (deliver true e).map handle) = [] := by
    rw [List.filterMap_eq_nil_iff]
    intro a ha
    rw [hscan a ha]
    rfl
  have h2 : ∀ l : List WatchEvent, (∀ e ∈ l, e = WatchEvent.change) →
      l.filterMap (fun e => (deliver true e).map handle) =
        l.map (fun _ => WatchAction.build) := by
    intro l
    induction l with
    | nil => intro _; rfl
    | cons c cs ih =>
      intro h
      rw [List.filterMap_cons, List.map_cons, h c (List.mem_cons_self c cs),
        ih (fun e he => h e (List.mem_cons_of_mem c he))]
      rfl
  rw [h1, List.filterMap_cons, h2 changes hch]
  rfl

/-- C5 witness: a concrete trace with one initial-scan event and two
subsequent changes yields one initial build, the log line, then exactly two
more builds. -/
theorem watch_one_build_per_change_witness :
    watchRun ([WatchEvent.initialScan] ++
        WatchEvent.ready :: [WatchEvent.change, WatchEvent.change]) =
      WatchAction.build :: WatchAction.logWatching ::
        [WatchEvent.change, WatchEvent.change].map (fun _ => WatchAction.build) :=
  watch_one_build_per_change [WatchEvent.initialScan]
    [WatchEvent.change, WatchEvent.change] (by decide) (by decide)

end RiotCli
